import Mathlib

/-!
Shallow embedding of the klogger circular-buffer character device
(src/klogger.c) and proofs about its read and write paths.

The repository contains two drafts of the driver: src/klogger.c with
MSG_LEN = 256 and LOG_BUF_LEN = 1 <<< 18 (1024 slots), and an earlier
draft with MSG_LEN = 8 and LOG_BUF_LEN = 1 <<< 5 (4 slots).  The ring
logic is identical; we parameterise over the two configuration constants
and instantiate both.  MAX_ENTRIES is LOG_BUF_LEN / MSG_LEN in the C
source; both configurations divide evenly, so MSG_LEN and MAX_ENTRIES are
kept primitive here and LOG_BUF_LEN is their product.

Bytes are modelled as natural numbers, the flat char array log_buffer as a
total function from byte offset to byte value (the driver only reads
offsets below LOG_BUF_LEN).  copy_from_user / copy_to_user are modelled as
all-or-nothing copies whose success is an explicit boolean input, and
kmalloc success likewise.
-/

namespace Klogger

/-- Configuration constants of the driver (MSG_LEN, MAX_ENTRIES from
src/klogger.c lines 22-24). -/
structure Config where
  MSG_LEN : Nat
  MAX_ENTRIES : Nat
deriving DecidableEq

/-- Total buffer size in bytes; LOG_BUF_LEN = MAX_ENTRIES * MSG_LEN
(src/klogger.c line 24 inverted, exact for both drafts). -/
def LOG_BUF_LEN (c : Config) : Nat := c.MAX_ENTRIES * c.MSG_LEN

/-- The constants of src/klogger.c: MSG_LEN = 256, MAX_ENTRIES = 2^18/256 = 1024. -/
def defaultConfig : Config := ⟨256, 1024⟩

/-- The constants of the earlier draft in the repository: MSG_LEN = 8,
MAX_ENTRIES = 32/8 = 4. -/
def smallConfig : Config := ⟨8, 4⟩

/-- The mutable ring fields of struct klogger (src/klogger.c lines 45-56)
that the read/write paths touch: the flat byte array and the four
tracker fields. -/
structure KlogState where
  log_buffer : Nat → Nat
  head : Nat
  tail : Nat
  prev_head : Nat
  entries : Nat

/-- Index advance with wraparound: (i + 1) & (MAX_ENTRIES - 1), exactly as
written at src/klogger.c lines 173, 227 and 242. -/
def nextIdx (c : Config) (i : Nat) : Nat := (i + 1) &&& (c.MAX_ENTRIES - 1)

/-- C strnlen(p, fuel): number of bytes from offset off before the first
NUL byte, capped at fuel (src/klogger.c line 152 uses fuel = MSG_LEN). -/
def strnlen (buf : Nat → Nat) (off : Nat) : Nat → Nat
  | 0 => 0
  | n + 1 => if buf off = 0 then 0 else strnlen buf (off + 1) n + 1

/-- Read n consecutive bytes starting at offset off (the source side of a
memcpy). -/
def slice (buf : Nat → Nat) (off : Nat) : Nat → List Nat
  | 0 => []
  | n + 1 => buf off :: slice buf (off + 1) n

/-- Store one byte at offset i. -/
def setByte (buf : Nat → Nat) (i v : Nat) : Nat → Nat :=
  fun j => if j = i then v else buf j

/-- Store a list of bytes at consecutive offsets starting at off (the
destination side of a memcpy / copy_from_user). -/
def writeBytes (buf : Nat → Nat) (off : Nat) : List Nat → Nat → Nat
  | [] => buf
  | b :: bs => writeBytes (setByte buf off b) (off + 1) bs

/-- Result of dev_write: -EFAULT or a byte count. -/
inductive WriteResult where
  | efault
  | ok (n : Nat)
deriving DecidableEq

/-- Result of dev_read: -EINVAL, -ENOMEM, -EFAULT, or the bytes delivered
to user space (a return of 0 bytes is ok []). -/
inductive ReadResult where
  | einval
  | enomem
  | efault
  | ok (bytes : List Nat)
deriving DecidableEq

/-- The value of the local bytes_to_copy after the truncation of
src/klogger.c lines 211-218: MSG_LEN - 1 for an oversized count, else the
count itself. -/
def bytesToCopy (c : Config) (count : Nat) : Nat :=
  if c.MSG_LEN ≤ count then c.MSG_LEN - 1 else count

/-- The value of the local usr_idx after lines 211-218: the copy starts
count - (MSG_LEN - 1) bytes into the user buffer for an oversized count. -/
def usrIdx (c : Config) (count : Nat) : Nat :=
  if c.MSG_LEN ≤ count then count - (c.MSG_LEN - 1) else 0

/-- The bytes actually copied from the user buffer: bytes_to_copy bytes
starting at usr_idx (the argument of copy_from_user at line 230). -/
def payload (c : Config) (msg : List Nat) : List Nat :=
  (msg.drop (usrIdx c msg.length)).take (bytesToCopy c msg.length)

/-- The eviction step of src/klogger.c lines 226-228: if the ring is full
and head equals tail, advance tail by one; performed before the copy, so
it happens even when the copy then fails. -/
def evicted (c : Config) (st : KlogState) : KlogState :=
  if st.entries = c.MAX_ENTRIES ∧ st.head = st.tail then
    { st with tail := nextIdx c st.tail } else st

/-- The successful tail of dev_write (src/klogger.c lines 230-242): copy
the payload to the slot at head, store the terminator right after it
(line 235), bump entries if not yet full (lines 237-239), set prev_head
to the written slot and advance head (lines 241-242). -/
def writeCommit (c : Config) (st : KlogState) (msg : List Nat) : KlogState :=
  let st1 := evicted c st
  let base := st1.head * c.MSG_LEN
  { log_buffer := setByte (writeBytes st1.log_buffer base (payload c msg))
      (base + bytesToCopy c msg.length) 0
    head := nextIdx c st1.head
    tail := st1.tail
    prev_head := st1.head
    entries := if st1.entries < c.MAX_ENTRIES then st1.entries + 1 else st1.entries }

/-- dev_write from src/klogger.c lines 210-247.  msg is the contents of
the user buffer, so count = msg.length; file_pos is the value of
*file_pos (dev_write never assigns *file_pos, so it is an input only);
copy_ok models whether copy_from_user succeeds.  Lines 220-222 return 0
untouched for file_pos at or past MSG_LEN; eviction (lines 226-228)
precedes the copy, so a failed copy (lines 230-233) still leaves the
evicted tail behind; line 246 returns the original, untruncated count. -/
def dev_write (c : Config) (st : KlogState) (msg : List Nat) (file_pos : Nat)
    (copy_ok : Bool) : WriteResult × KlogState :=
  if c.MSG_LEN ≤ file_pos then (WriteResult.ok 0, st)
  else if copy_ok = false then (WriteResult.efault, evicted c st)
  else (WriteResult.ok msg.length, writeCommit c st msg)

/-- The staging loop of dev_read (src/klogger.c lines 149-174), written as
structural recursion on left = entries - entries_read.  Arguments: ph is
klog.prev_head, count the caller's byte budget, pos the current slot,
acc the bytes staged so far (bytes_read = acc.length), btc the current
value of the C local bytes_to_copy.  Returns the staged bytes and the
final value of bytes_to_copy, which line 178 of the source inspects. -/
def readLoop (c : Config) (buf : Nat → Nat) (ph count : Nat) :
    Nat → Nat → List Nat → Nat → List Nat × Nat
  | _, 0, acc, btc => (acc, btc)
  | pos, left + 1, acc, btc =>
    if acc.length < count then
      let len0 := strnlen buf (pos * c.MSG_LEN) c.MSG_LEN
      let len := if count < acc.length + len0 then count - acc.length else len0
      let acc2 := acc ++ slice buf (pos * c.MSG_LEN) len
      if pos = ph then (acc2, len)
      else readLoop c buf ph count (nextIdx c pos) left acc2 len
    else (acc, btc)

/-- dev_read from src/klogger.c lines 126-195.  user_valid models whether
user_buffer is non-NULL, alloc_ok whether kmalloc succeeds, copy_ok
whether copy_to_user succeeds (a zero-length copy_to_user always
succeeds, hence the r.1 ≠ [] guard).  Returns the result and the updated
*file_pos; the ring state is never written by dev_read, so it is not
returned.  The C local bytes_to_copy is uninitialized when the loop body
never runs (that requires entries = 0, so bytes_read = 0); in that case
whichever way the comparison of line 178 goes the call returns 0 bytes
and leaves *file_pos unchanged, so the initial value 0 used here is
observably faithful. -/
def dev_read (c : Config) (st : KlogState) (user_valid : Bool) (count : Nat)
    (file_pos : Nat) (alloc_ok : Bool) (copy_ok : Bool) : ReadResult × Nat :=
  if user_valid = false ∨ count = 0 then (ReadResult.einval, file_pos)
  else if LOG_BUF_LEN c ≤ file_pos then (ReadResult.ok [], file_pos)
  else if alloc_ok = false then (ReadResult.enomem, file_pos)
  else
    let r := readLoop c st.log_buffer st.prev_head count st.tail st.entries [] 0
    if r.2 ≤ file_pos then (ReadResult.ok [], file_pos)
    else if copy_ok = false ∧ r.1 ≠ [] then (ReadResult.efault, file_pos)
    else (ReadResult.ok r.1, file_pos + r.1.length)

/-- The state set up by klogger_init (src/klogger.c lines 265-275): zeroed
buffer, head = tail = prev_head = 0, entries = 0. -/
def initState : KlogState :=
  { log_buffer := fun _ => 0, head := 0, tail := 0, prev_head := 0, entries := 0 }

/-- One externally invokable operation on the ring. -/
inductive Op where
  | write (msg : List Nat) (file_pos : Nat) (copy_ok : Bool)
  | read (user_valid : Bool) (count file_pos : Nat) (alloc_ok copy_ok : Bool)

/-- Effect of one operation on the ring state.  dev_read takes the read
lock only and performs no store to klog, so a read op returns the state
unchanged. -/
def applyOp (c : Config) (st : KlogState) : Op → KlogState
  | Op.write msg fp cok => (dev_write c st msg fp cok).2
  | Op.read _ _ _ _ _ => st

/-- Run a sequence of operations from a state. -/
def runOps (c : Config) (st : KlogState) : List Op → KlogState
  | [] => st
  | op :: ops => runOps c (applyOp c st op) ops

/-- Run a sequence of successful writes (file_pos = 0, copy ok), one
message per call, as the test script does. -/
def writeSeq (c : Config) (st : KlogState) : List (List Nat) → KlogState
  | [] => st
  | m :: ms => writeSeq c (dev_write c st m 0 true).2 ms

/-- Content of slot i: the bytes before the first NUL, capped at MSG_LEN,
exactly what the read loop stages for that slot. -/
def slotContent (c : Config) (buf : Nat → Nat) (i : Nat) : List Nat :=
  slice buf (i * c.MSG_LEN) (strnlen buf (i * c.MSG_LEN) c.MSG_LEN)

/-- Indices of the currently valid slots, oldest first: entries slots
starting at tail, wrapping with the mask of the source. -/
def validSlots (c : Config) (st : KlogState) : List Nat :=
  (List.range st.entries).map (fun i => (st.tail + i) &&& (c.MAX_ENTRIES - 1))

/-- The currently valid entries, oldest to newest. -/
def entriesList (c : Config) (st : KlogState) : List (List Nat) :=
  (validSlots c st).map (slotContent c st.log_buffer)

/-- Modelled from the spec (section 4.4): the logical snapshot, the
concatenation of all currently valid entries, oldest to newest.  Used to
compare the spec's cursor semantics with the source's. -/
def specSnapshot (c : Config) (st : KlogState) : List Nat :=
  (entriesList c st).flatten

/-- Byte offsets within the snapshot at which a whole message ends
(cumulative sums of the entry lengths, starting at 0).  A read whose
result length is not in this list ended in the middle of a message. -/
def msgEnds (c : Config) (st : KlogState) : List Nat :=
  ((entriesList c st).map List.length).scanl (fun a b => a + b) 0

/-- The concatenation of the slot contents visited by the staging loop:
starting at pos, at most left slots, stopping after ph is visited. -/
def scanConcat (c : Config) (buf : Nat → Nat) (ph : Nat) : Nat → Nat → List Nat
  | _, 0 => []
  | pos, left + 1 =>
    if pos = ph then slotContent c buf pos
    else slotContent c buf pos ++ scanConcat c buf ph (nextIdx c pos) left

/-- The tracker invariant of the spec (section 3): head and tail below
MAX_ENTRIES, entries at most MAX_ENTRIES, and head one past the most
recently written slot whenever an entry exists. -/
def Inv (c : Config) (st : KlogState) : Prop :=
  st.head < c.MAX_ENTRIES ∧ st.tail < c.MAX_ENTRIES ∧
  st.entries ≤ c.MAX_ENTRIES ∧
  (0 < st.entries → st.head = nextIdx c st.prev_head)

/-- Every slot holds terminated content: a NUL occurs within the slot, so
the content length is at most MSG_LEN - 1. -/
def Terminated (c : Config) (st : KlogState) : Prop :=
  ∀ j < c.MAX_ENTRIES, strnlen st.log_buffer (j * c.MSG_LEN) c.MSG_LEN < c.MSG_LEN

/-- Abstraction relation for a ring produced by a sequence of successful
writes msgs from the initial state: the tracker fields are determined by
msgs.length, and the valid window holds the most recent messages. -/
def RingRepr (c : Config) (msgs : List (List Nat)) (st : KlogState) : Prop :=
  st.head = msgs.length % c.MAX_ENTRIES ∧
  st.entries = min msgs.length c.MAX_ENTRIES ∧
  st.tail = (msgs.length - st.entries) % c.MAX_ENTRIES ∧
  (0 < msgs.length → st.prev_head = (msgs.length - 1) % c.MAX_ENTRIES) ∧
  ∀ i, i < st.entries →
    slotContent c st.log_buffer ((msgs.length - st.entries + i) % c.MAX_ENTRIES) =
      msgs.getD (msgs.length - st.entries + i) []

/-- Ring holding the two entries 97 98 99 and 120 in the small
configuration: snapshot is 97 98 99 120 of length 4. -/
def stC1 : KlogState := writeSeq smallConfig initState [[97, 98, 99], [120]]

/-- Ring holding the single entry 97 98 99 in the small configuration. -/
def stC2 : KlogState := writeSeq smallConfig initState [[97, 98, 99]]

/-- Full small ring (4 entries) with head = tail = 0. -/
def stC3 : KlogState := writeSeq smallConfig initState [[1], [2], [3], [4]]

/-! Basic byte-level lemmas. -/

theorem slice_length (buf : Nat → Nat) (off n : Nat) : (slice buf off n).length = n := by
  induction n generalizing off with
  | zero => rfl
  | succ n ih => simp [slice, ih]

theorem slice_congr {buf1 buf2 : Nat → Nat} {off n : Nat}
    (h : ∀ i, i < n → buf1 (off + i) = buf2 (off + i)) :
    slice buf1 off n = slice buf2 off n := by
  induction n generalizing off with
  | zero => rfl
  | succ n ih =>
    simp only [slice, List.cons.injEq]
    constructor
    · simpa using h 0 (Nat.succ_pos n)
    · exact ih fun i hi => by
        have := h (i + 1) (by omega)
        simpa [Nat.add_assoc, Nat.add_comm 1 i] using this

theorem strnlen_congr {buf1 buf2 : Nat → Nat} {off n : Nat}
    (h : ∀ i, i < n → buf1 (off + i) = buf2 (off + i)) :
    strnlen buf1 off n = strnlen buf2 off n := by
  induction n generalizing off with
  | zero => rfl
  | succ n ih =>
    have h0 : buf1 off = buf2 off := by simpa using h 0 (Nat.succ_pos n)
    have hrec : strnlen buf1 (off + 1) n = strnlen buf2 (off + 1) n :=
      ih fun i hi => by
        have := h (i + 1) (by omega)
        simpa [Nat.add_assoc, Nat.add_comm 1 i] using this
    simp [strnlen, h0, hrec]

theorem strnlen_le (buf : Nat → Nat) (off n : Nat) : strnlen buf off n ≤ n := by
  induction n generalizing off with
  | zero => exact Nat.le_refl 0
  | succ n ih =>
    simp only [strnlen]
    split
    · exact Nat.zero_le _
    · exact Nat.succ_le_succ (ih (off + 1))

theorem strnlen_le_of_zero {buf : Nat → Nat} {off k : Nat} (n : Nat)
    (h : buf (off + k) = 0) : strnlen buf off n ≤ k := by
  induction n generalizing off k with
  | zero => exact Nat.zero_le k
  | succ n ih =>
    simp only [strnlen]
    split
    · exact Nat.zero_le k
    · rename_i hnz
      cases k with
      | zero => exact absurd (by simpa using h) hnz
      | succ k =>
        have : strnlen buf (off + 1) n ≤ k :=
          ih (by simpa [Nat.add_assoc, Nat.add_comm 1 k] using h)
        omega

theorem strnlen_eq_of {buf : Nat → Nat} {off k n : Nat}
    (hnz : ∀ i, i < k → buf (off + i) ≠ 0) (hz : buf (off + k) = 0) (hk : k < n) :
    strnlen buf off n = k := by
  induction k generalizing off n with
  | zero =>
    cases n with
    | zero => omega
    | succ n => simp [strnlen, show buf off = 0 by simpa using hz]
  | succ k ih =>
    cases n with
    | zero => omega
    | succ n =>
      have h0 : buf off ≠ 0 := by simpa using hnz 0 (Nat.succ_pos k)
      have : strnlen buf (off + 1) n = k := by
        refine ih (fun i hi => ?_) (by simpa [Nat.add_assoc, Nat.add_comm 1 k] using hz)
          (by omega)
        have := hnz (i + 1) (by omega)
        simpa [Nat.add_assoc, Nat.add_comm 1 i] using this
      simp [strnlen, h0, this]

theorem setByte_same (buf : Nat → Nat) (i v : Nat) : setByte buf i v i = v := by
  simp [setByte]

theorem setByte_out {j i : Nat} (buf : Nat → Nat) (v : Nat) (h : j ≠ i) :
    setByte buf i v j = buf j := by
  simp [setByte, h]

theorem writeBytes_out (l : List Nat) (buf : Nat → Nat) (off j : Nat)
    (h : j < off ∨ off + l.length ≤ j) : writeBytes buf off l j = buf j := by
  induction l generalizing buf off with
  | nil => rfl
  | cons b bs ih =>
    have hj : j ≠ off := by simp at h; omega
    have : writeBytes (setByte buf off b) (off + 1) bs j = setByte buf off b j :=
      ih (setByte buf off b) (off + 1) (by simp at h ⊢; omega)
    simp only [writeBytes, this]
    exact setByte_out buf b hj

theorem writeBytes_at (l : List Nat) (buf : Nat → Nat) (off i : Nat)
    (hi : i < l.length) : writeBytes buf off l (off + i) = l.getD i 0 := by
  induction l generalizing buf off i with
  | nil => simp at hi
  | cons b bs ih =>
    cases i with
    | zero =>
      have : writeBytes (setByte buf off b) (off + 1) bs off = setByte buf off b off :=
        writeBytes_out bs _ (off + 1) off (Or.inl (by omega))
      simpa [writeBytes, this] using setByte_same buf off b
    | succ i =>
      have : off + (i + 1) = (off + 1) + i := by omega
      rw [writeBytes, this, ih (setByte buf off b) (off + 1) i (by simpa using hi)]
      rfl

theorem stored_at (l : List Nat) (buf : Nat → Nat) (base i : Nat) (hi : i < l.length) :
    setByte (writeBytes buf base l) (base + l.length) 0 (base + i) = l.getD i 0 := by
  rw [setByte_out _ _ (by omega)]
  exact writeBytes_at l buf base i hi

theorem stored_nul (l : List Nat) (buf : Nat → Nat) (base : Nat) :
    setByte (writeBytes buf base l) (base + l.length) 0 (base + l.length) = 0 :=
  setByte_same _ _ _

theorem stored_out (l : List Nat) (buf : Nat → Nat) (base j : Nat)
    (h : j < base ∨ base + l.length + 1 ≤ j) :
    setByte (writeBytes buf base l) (base + l.length) 0 j = buf j := by
  rw [setByte_out _ _ (by omega)]
  exact writeBytes_out l buf base j (by omega)

theorem slice_stored (l : List Nat) (buf : Nat → Nat) (base : Nat) :
    slice (setByte (writeBytes buf base l) (base + l.length) 0) base l.length = l := by
  induction l generalizing buf base with
  | nil => rfl
  | cons b bs ih =>
    simp only [slice, List.length_cons, List.cons.injEq]
    constructor
    · simpa using stored_at (b :: bs) buf base 0 (by simp)
    · have heq : slice (setByte (writeBytes buf base (b :: bs)) (base + (bs.length + 1)) 0)
          (base + 1) bs.length =
          slice (setByte (writeBytes (setByte buf base b) (base + 1) bs)
            ((base + 1) + bs.length) 0) (base + 1) bs.length := by
        refine slice_congr fun i hi => ?_
        simp only [writeBytes, List.length_cons]
        have : base + (bs.length + 1) = (base + 1) + bs.length := by omega
        rw [this]
      rw [heq, ih (setByte buf base b) (base + 1)]

/-! Slot-level lemmas about a freshly written slot. -/

theorem strnlen_stored {l : List Nat} (buf : Nat → Nat) (base : Nat) {fuel : Nat}
    (hlen : l.length < fuel) (hnz : ∀ b ∈ l, b ≠ 0) :
    strnlen (setByte (writeBytes buf base l) (base + l.length) 0) base fuel = l.length := by
  refine strnlen_eq_of (fun i hi => ?_) (stored_nul l buf base) hlen
  rw [stored_at l buf base i hi]
  have hmem : l.getD i 0 ∈ l := by
    rw [List.getD_eq_getElem l 0 hi]
    exact List.getElem_mem hi
  exact hnz _ hmem

theorem slotContent_stored (c : Config) (buf : Nat → Nat) (hd : Nat) (l : List Nat)
    (hlen : l.length < c.MSG_LEN) (hnz : ∀ b ∈ l, b ≠ 0) :
    slotContent c (setByte (writeBytes buf (hd * c.MSG_LEN) l) (hd * c.MSG_LEN + l.length) 0)
      hd = l := by
  unfold slotContent
  rw [strnlen_stored buf (hd * c.MSG_LEN) hlen hnz]
  exact slice_stored l buf (hd * c.MSG_LEN)

theorem slot_offsets_disjoint {c : Config} {hd j : Nat} (hj : j ≠ hd) {len : Nat}
    (hlen : len < c.MSG_LEN) {i : Nat} (hi : i < c.MSG_LEN) :
    j * c.MSG_LEN + i < hd * c.MSG_LEN ∨ hd * c.MSG_LEN + len + 1 ≤ j * c.MSG_LEN + i := by
  rcases Nat.lt_or_ge j hd with h | h
  · left
    have : (j + 1) * c.MSG_LEN ≤ hd * c.MSG_LEN := Nat.mul_le_mul_right _ h
    have hexp : (j + 1) * c.MSG_LEN = j * c.MSG_LEN + c.MSG_LEN := by ring
    omega
  · right
    have hlt : hd < j := lt_of_le_of_ne h (Ne.symm hj)
    have : (hd + 1) * c.MSG_LEN ≤ j * c.MSG_LEN := Nat.mul_le_mul_right _ hlt
    have hexp : (hd + 1) * c.MSG_LEN = hd * c.MSG_LEN + c.MSG_LEN := by ring
    omega

theorem slotContent_untouched (c : Config) (buf : Nat → Nat) (hd j : Nat) (l : List Nat)
    (hlen : l.length < c.MSG_LEN) (hj : j ≠ hd) :
    slotContent c (setByte (writeBytes buf (hd * c.MSG_LEN) l) (hd * c.MSG_LEN + l.length) 0)
      j = slotContent c buf j := by
  have hcongr : ∀ i, i < c.MSG_LEN →
      setByte (writeBytes buf (hd * c.MSG_LEN) l) (hd * c.MSG_LEN + l.length) 0
        (j * c.MSG_LEN + i) = buf (j * c.MSG_LEN + i) := fun i hi =>
    stored_out l buf (hd * c.MSG_LEN) _ (slot_offsets_disjoint hj hlen hi)
  unfold slotContent
  rw [strnlen_congr hcongr]
  exact slice_congr fun i hi =>
    hcongr i (lt_of_lt_of_le hi (strnlen_le buf (j * c.MSG_LEN) c.MSG_LEN))

/-! Index arithmetic: the bit-mask of the source equals mod for the
power-of-two slot counts of both drafts. -/

theorem nextIdx_eq_mod (c : Config) (ex : Nat) (hex : c.MAX_ENTRIES = 2 ^ ex) (i : Nat) :
    nextIdx c i = (i + 1) % c.MAX_ENTRIES := by
  unfold nextIdx
  rw [hex]
  exact Nat.and_pow_two_sub_one_eq_mod (i + 1) ex

theorem mask_eq_mod (c : Config) (ex : Nat) (hex : c.MAX_ENTRIES = 2 ^ ex) (i : Nat) :
    i &&& (c.MAX_ENTRIES - 1) = i % c.MAX_ENTRIES := by
  rw [hex]
  exact Nat.and_pow_two_sub_one_eq_mod i ex

theorem nextIdx_lt (c : Config) (hN : 0 < c.MAX_ENTRIES) (i : Nat) :
    nextIdx c i < c.MAX_ENTRIES := by
  have : nextIdx c i ≤ c.MAX_ENTRIES - 1 := Nat.and_le_right
  omega

theorem add_mod_ne {j d N : Nat} (hd : 0 < d) (hdN : d < N) : (j + d) % N ≠ j % N := by
  have hN : 0 < N := lt_trans hd hdN
  intro h
  have h1 : (j % N + d) % N = j % N := by rw [Nat.mod_add_mod]; exact h
  have ha : j % N < N := Nat.mod_lt _ hN
  rcases Nat.lt_or_ge (j % N + d) N with hlt | hge
  · rw [Nat.mod_eq_of_lt hlt] at h1; omega
  · have h2 : (j % N + d) % N = (j % N + d - N) % N := Nat.mod_eq_sub_mod hge
    have h3 : j % N + d - N < N := by omega
    rw [h2, Nat.mod_eq_of_lt h3] at h1
    omega

theorem exists_window_index {N : Nat} (hN : 0 < N) (s p : Nat) (hp : p < N) :
    ∃ i, i < N ∧ (s + i) % N = p := by
  refine ⟨(p + N - s % N) % N, Nat.mod_lt _ hN, ?_⟩
  have hs : s % N < N := Nat.mod_lt _ hN
  have h3 : s % N + (p + N - s % N) = p + N := by omega
  rw [Nat.add_mod_mod, ← Nat.mod_add_mod, h3, Nat.add_mod_right]
  exact Nat.mod_eq_of_lt hp

/-! Read-loop lemmas. -/

theorem slice_take (buf : Nat → Nat) : ∀ (a b off : Nat), a ≤ b →
    slice buf off a = (slice buf off b).take a := by
  intro a
  induction a with
  | zero => intro b off _; simp [slice]
  | succ a ih =>
    intro b off hab
    cases b with
    | zero => omega
    | succ b => simp [slice, ih b (off + 1) (by omega)]

theorem slotContent_length (c : Config) (buf : Nat → Nat) (pos : Nat) :
    (slotContent c buf pos).length = strnlen buf (pos * c.MSG_LEN) c.MSG_LEN := by
  unfold slotContent
  exact slice_length _ _ _

theorem slice_eq_slotContent (c : Config) (buf : Nat → Nat) (pos : Nat) :
    slice buf (pos * c.MSG_LEN) (strnlen buf (pos * c.MSG_LEN) c.MSG_LEN) =
      slotContent c buf pos := rfl

theorem readLoop_eq_take (c : Config) (buf : Nat → Nat) (ph count : Nat) :
    ∀ left pos acc btc, acc.length ≤ count →
      (readLoop c buf ph count pos left acc btc).1 =
        acc ++ (scanConcat c buf ph pos left).take (count - acc.length) := by
  intro left
  induction left with
  | zero => intro pos acc btc _; simp [readLoop, scanConcat]
  | succ left ih =>
    intro pos acc btc hacc
    by_cases hg : acc.length < count
    · simp only [readLoop, if_pos hg]
      by_cases hclip : count < acc.length + strnlen buf (pos * c.MSG_LEN) c.MSG_LEN
      · rw [if_pos hclip]
        have hlen : count - acc.length ≤ strnlen buf (pos * c.MSG_LEN) c.MSG_LEN := by omega
        have hsl : slice buf (pos * c.MSG_LEN) (count - acc.length) =
            (slotContent c buf pos).take (count - acc.length) := by
          rw [← slice_eq_slotContent]
          exact slice_take buf _ _ _ hlen
        by_cases hp : pos = ph
        · rw [if_pos hp, scanConcat, if_pos hp, hsl]
        · rw [if_neg hp, scanConcat, if_neg hp]
          have hacc2 : (acc ++ slice buf (pos * c.MSG_LEN) (count - acc.length)).length =
              count := by
            rw [List.length_append, slice_length]; omega
          rw [ih _ _ _ (le_of_eq hacc2), hacc2, Nat.sub_self, List.take_zero,
            List.append_nil, hsl, List.take_append_eq_append_take]
          have hz : count - acc.length - (slotContent c buf pos).length = 0 := by
            rw [slotContent_length]; omega
          rw [hz, List.take_zero, List.append_nil]
      · rw [if_neg hclip]
        have hle : strnlen buf (pos * c.MSG_LEN) c.MSG_LEN ≤ count - acc.length := by omega
        by_cases hp : pos = ph
        · rw [if_pos hp, scanConcat, if_pos hp, slice_eq_slotContent,
            List.take_of_length_le (by rw [slotContent_length]; omega)]
        · rw [if_neg hp, scanConcat, if_neg hp]
          have hacc2 : (acc ++ slice buf (pos * c.MSG_LEN)
              (strnlen buf (pos * c.MSG_LEN) c.MSG_LEN)).length ≤ count := by
            rw [List.length_append, slice_length]; omega
          rw [ih _ _ _ hacc2, slice_eq_slotContent, List.take_append_eq_append_take,
            List.take_of_length_le (l := slotContent c buf pos)
              (by rw [slotContent_length]; omega),
            List.append_assoc]
          have hq : count - (acc ++ slotContent c buf pos).length =
              count - acc.length - (slotContent c buf pos).length := by
            rw [List.length_append]; omega
          rw [hq]
    · simp only [readLoop, if_neg hg]
      have : acc.length = count := by omega
      simp [this]

theorem scanConcat_length_le (c : Config) (buf : Nat → Nat) (ph : Nat) :
    ∀ left pos, (scanConcat c buf ph pos left).length ≤ left * c.MSG_LEN := by
  intro left
  induction left with
  | zero => intro pos; simp [scanConcat]
  | succ left ih =>
    intro pos
    have hc : (slotContent c buf pos).length ≤ c.MSG_LEN := by
      rw [slotContent_length]; exact strnlen_le _ _ _
    rw [scanConcat]
    by_cases hp : pos = ph
    · rw [if_pos hp]
      calc (slotContent c buf pos).length ≤ c.MSG_LEN := hc
        _ ≤ (left + 1) * c.MSG_LEN := by
            have h1 : 1 * c.MSG_LEN ≤ (left + 1) * c.MSG_LEN :=
              Nat.mul_le_mul_right _ (by omega)
            omega
    · rw [if_neg hp, List.length_append]
      have := ih (nextIdx c pos)
      have hexp : (left + 1) * c.MSG_LEN = left * c.MSG_LEN + c.MSG_LEN := by ring
      omega

theorem readLoop_btc_aux (c : Config) (buf : Nat → Nat) (ph count : Nat)
    (hN : 0 < c.MAX_ENTRIES)
    (hslots : ∀ p, p < c.MAX_ENTRIES → 0 < strnlen buf (p * c.MSG_LEN) c.MSG_LEN) :
    ∀ left pos acc btc, pos < c.MAX_ENTRIES → 0 < btc →
      0 < (readLoop c buf ph count pos left acc btc).2 := by
  intro left
  induction left with
  | zero => intro pos acc btc _ hbtc; simpa [readLoop] using hbtc
  | succ left ih =>
    intro pos acc btc hpos hbtc
    simp only [readLoop]
    by_cases hg : acc.length < count
    · rw [if_pos hg]
      have hlen : 0 < (if count < acc.length + strnlen buf (pos * c.MSG_LEN) c.MSG_LEN
          then count - acc.length else strnlen buf (pos * c.MSG_LEN) c.MSG_LEN) := by
        split
        · omega
        · exact hslots pos hpos
      by_cases hp : pos = ph
      · rw [if_pos hp]; exact hlen
      · rw [if_neg hp]
        exact ih (nextIdx c pos) _ _ (nextIdx_lt c hN pos) hlen
    · rw [if_neg hg]; exact hbtc

theorem readLoop_btc_pos (c : Config) (buf : Nat → Nat) (ph count : Nat)
    (hN : 0 < c.MAX_ENTRIES)
    (hslots : ∀ p, p < c.MAX_ENTRIES → 0 < strnlen buf (p * c.MSG_LEN) c.MSG_LEN) :
    ∀ left pos acc btc, 0 < left → acc.length < count → pos < c.MAX_ENTRIES →
      0 < (readLoop c buf ph count pos left acc btc).2 := by
  intro left pos acc btc hleft hacc hpos
  cases left with
  | zero => omega
  | succ left =>
    simp only [readLoop, if_pos hacc]
    have hlen : 0 < (if count < acc.length + strnlen buf (pos * c.MSG_LEN) c.MSG_LEN
        then count - acc.length else strnlen buf (pos * c.MSG_LEN) c.MSG_LEN) := by
      split
      · omega
      · exact hslots pos hpos
    by_cases hp : pos = ph
    · rw [if_pos hp]; exact hlen
    · rw [if_neg hp]
      exact readLoop_btc_aux c buf ph count hN hslots left (nextIdx c pos) _ _
        (nextIdx_lt c hN pos) hlen

/-! dev_write case lemmas and component facts. -/

theorem dev_write_fp_ge (c : Config) (st : KlogState) (msg : List Nat) (fp : Nat)
    (cok : Bool) (h : c.MSG_LEN ≤ fp) : dev_write c st msg fp cok = (WriteResult.ok 0, st) := by
  simp [dev_write, h]

theorem dev_write_efault_eq (c : Config) (st : KlogState) (msg : List Nat) (fp : Nat)
    (h : fp < c.MSG_LEN) : dev_write c st msg fp false = (WriteResult.efault, evicted c st) := by
  simp [dev_write, Nat.not_le.mpr h]

theorem dev_write_ok_eq (c : Config) (st : KlogState) (msg : List Nat) (fp : Nat)
    (h : fp < c.MSG_LEN) :
    dev_write c st msg fp true = (WriteResult.ok msg.length, writeCommit c st msg) := by
  simp [dev_write, Nat.not_le.mpr h]

theorem evicted_entries (c : Config) (st : KlogState) : (evicted c st).entries = st.entries := by
  unfold evicted; split <;> rfl

theorem evicted_head (c : Config) (st : KlogState) : (evicted c st).head = st.head := by
  unfold evicted; split <;> rfl

theorem evicted_prev_head (c : Config) (st : KlogState) :
    (evicted c st).prev_head = st.prev_head := by
  unfold evicted; split <;> rfl

theorem evicted_log_buffer (c : Config) (st : KlogState) :
    (evicted c st).log_buffer = st.log_buffer := by
  unfold evicted; split <;> rfl

theorem evicted_tail_lt (c : Config) (hN : 0 < c.MAX_ENTRIES) (st : KlogState)
    (h : st.tail < c.MAX_ENTRIES) : (evicted c st).tail < c.MAX_ENTRIES := by
  unfold evicted
  split
  · exact nextIdx_lt c hN st.tail
  · exact h

theorem bytesToCopy_lt (c : Config) (hL : 0 < c.MSG_LEN) (count : Nat) :
    bytesToCopy c count < c.MSG_LEN := by
  unfold bytesToCopy
  split <;> omega

theorem payload_length (c : Config) (msg : List Nat) :
    (payload c msg).length = bytesToCopy c msg.length := by
  by_cases h : c.MSG_LEN ≤ msg.length
  · simp only [payload, usrIdx, bytesToCopy, if_pos h]
    rw [List.length_take, List.length_drop]
    omega
  · simp only [payload, usrIdx, bytesToCopy, if_neg h]
    rw [List.length_take, List.length_drop]
    omega

theorem payload_small (c : Config) (msg : List Nat) (h : msg.length < c.MSG_LEN) :
    payload c msg = msg := by
  unfold payload usrIdx bytesToCopy
  rw [if_neg (Nat.not_le.mpr h), if_neg (Nat.not_le.mpr h)]
  simp

theorem payload_large (c : Config) (msg : List Nat) (h : c.MSG_LEN ≤ msg.length) :
    payload c msg = msg.drop (msg.length - (c.MSG_LEN - 1)) := by
  unfold payload usrIdx bytesToCopy
  rw [if_pos h, if_pos h]
  apply List.take_of_length_le
  rw [List.length_drop]
  omega

/-! Tracker invariant (C7) and termination invariant (C9) machinery. -/

theorem writeCommit_log_buffer (c : Config) (st : KlogState) (msg : List Nat) :
    (writeCommit c st msg).log_buffer =
      setByte (writeBytes st.log_buffer (st.head * c.MSG_LEN) (payload c msg))
        (st.head * c.MSG_LEN + (payload c msg).length) 0 := by
  simp only [writeCommit]
  rw [evicted_head, evicted_log_buffer, payload_length]

theorem Inv_applyOp (c : Config) (hN : 0 < c.MAX_ENTRIES) (st : KlogState) (op : Op)
    (h : Inv c st) : Inv c (applyOp c st op) := by
  obtain ⟨h1, h2, h3, h4⟩ := h
  cases op with
  | read uv count fp aok cok => exact ⟨h1, h2, h3, h4⟩
  | write msg fp cok =>
    by_cases hfp : c.MSG_LEN ≤ fp
    · simpa [applyOp, dev_write_fp_ge c st msg fp cok hfp] using ⟨h1, h2, h3, h4⟩
    · cases cok with
      | false =>
        rw [applyOp, dev_write_efault_eq c st msg fp (by omega)]
        exact ⟨by rw [evicted_head]; exact h1,
          evicted_tail_lt c hN st h2,
          by rw [evicted_entries]; exact h3,
          by rw [evicted_entries, evicted_head, evicted_prev_head]; exact h4⟩
      | true =>
        rw [applyOp, dev_write_ok_eq c st msg fp (by omega)]
        refine ⟨?_, ?_, ?_, ?_⟩
        · show nextIdx c (evicted c st).head < c.MAX_ENTRIES
          exact nextIdx_lt c hN _
        · show (evicted c st).tail < c.MAX_ENTRIES
          exact evicted_tail_lt c hN st h2
        · show (if (evicted c st).entries < c.MAX_ENTRIES then (evicted c st).entries + 1
            else (evicted c st).entries) ≤ c.MAX_ENTRIES
          rw [evicted_entries]
          split <;> omega
        · intro _
          rfl

theorem Inv_runOps (c : Config) (hN : 0 < c.MAX_ENTRIES) :
    ∀ (ops : List Op) (st : KlogState), Inv c st → Inv c (runOps c st ops) := by
  intro ops
  induction ops with
  | nil => intro st h; exact h
  | cons op ops ih => intro st h; exact ih _ (Inv_applyOp c hN st op h)

theorem Inv_init (c : Config) (hN : 0 < c.MAX_ENTRIES) : Inv c initState :=
  ⟨hN, hN, Nat.zero_le _, fun h => absurd h (by simp [initState])⟩

theorem applyOp_entries_mono (c : Config) (st : KlogState) (op : Op) :
    st.entries ≤ (applyOp c st op).entries := by
  cases op with
  | read uv count fp aok cok => exact Nat.le_refl _
  | write msg fp cok =>
    by_cases hfp : c.MSG_LEN ≤ fp
    · rw [applyOp, dev_write_fp_ge c st msg fp cok hfp]
    · cases cok with
      | false =>
        rw [applyOp, dev_write_efault_eq c st msg fp (by omega), evicted_entries]
      | true =>
        rw [applyOp, dev_write_ok_eq c st msg fp (by omega)]
        show st.entries ≤ (if (evicted c st).entries < c.MAX_ENTRIES
          then (evicted c st).entries + 1 else (evicted c st).entries)
        rw [evicted_entries]
        split <;> omega

theorem strnlen_zero_buf (off n : Nat) : strnlen (fun _ => 0) off n = 0 := by
  cases n <;> simp [strnlen]

theorem Terminated_init (c : Config) (hL : 0 < c.MSG_LEN) : Terminated c initState := by
  intro j _
  show strnlen initState.log_buffer (j * c.MSG_LEN) c.MSG_LEN < c.MSG_LEN
  have hb : initState.log_buffer = fun _ => 0 := rfl
  rw [hb, strnlen_zero_buf]
  omega

theorem Terminated_applyOp (c : Config) (hL : 0 < c.MSG_LEN) (st : KlogState) (op : Op)
    (h : Terminated c st) : Terminated c (applyOp c st op) := by
  cases op with
  | read uv count fp aok cok => exact h
  | write msg fp cok =>
    by_cases hfp : c.MSG_LEN ≤ fp
    · rw [applyOp, dev_write_fp_ge c st msg fp cok hfp]; exact h
    · cases cok with
      | false =>
        rw [applyOp, dev_write_efault_eq c st msg fp (by omega)]
        intro j hj
        rw [evicted_log_buffer]
        exact h j hj
      | true =>
        rw [applyOp, dev_write_ok_eq c st msg fp (by omega)]
        intro j hj
        show strnlen (writeCommit c st msg).log_buffer (j * c.MSG_LEN) c.MSG_LEN < c.MSG_LEN
        rw [writeCommit_log_buffer]
        by_cases hhd : j = st.head
        · rw [hhd]
          have hz := stored_nul (payload c msg) st.log_buffer (st.head * c.MSG_LEN)
          have hle := strnlen_le_of_zero c.MSG_LEN hz
          have hpl : (payload c msg).length < c.MSG_LEN := by
            rw [payload_length]
            exact bytesToCopy_lt c hL msg.length
          omega
        · have hcongr : ∀ i, i < c.MSG_LEN →
              setByte (writeBytes st.log_buffer (st.head * c.MSG_LEN) (payload c msg))
                (st.head * c.MSG_LEN + (payload c msg).length) 0 (j * c.MSG_LEN + i) =
                st.log_buffer (j * c.MSG_LEN + i) := fun i hi =>
            stored_out (payload c msg) st.log_buffer (st.head * c.MSG_LEN) _
              (slot_offsets_disjoint hhd
                (by rw [payload_length]; exact bytesToCopy_lt c hL msg.length) hi)
          rw [strnlen_congr hcongr]
          exact h j hj

theorem Terminated_runOps (c : Config) (hL : 0 < c.MSG_LEN) :
    ∀ (ops : List Op) (st : KlogState), Terminated c st → Terminated c (runOps c st ops) := by
  intro ops
  induction ops with
  | nil => intro st h; exact h
  | cons op ops ih => intro st h; exact ih _ (Terminated_applyOp c hL st op h)

/-! Ring abstraction: a sequence of successful writes from the initial
state is represented by the list of messages written. -/

theorem writeCommit_head (c : Config) (st : KlogState) (msg : List Nat) :
    (writeCommit c st msg).head = nextIdx c st.head := by
  simp only [writeCommit]
  rw [evicted_head]

theorem writeCommit_tail (c : Config) (st : KlogState) (msg : List Nat) :
    (writeCommit c st msg).tail = (evicted c st).tail := by
  simp only [writeCommit]

theorem writeCommit_prev_head (c : Config) (st : KlogState) (msg : List Nat) :
    (writeCommit c st msg).prev_head = st.head := by
  simp only [writeCommit]
  rw [evicted_head]

theorem writeCommit_entries (c : Config) (st : KlogState) (msg : List Nat) :
    (writeCommit c st msg).entries =
      if st.entries < c.MAX_ENTRIES then st.entries + 1 else st.entries := by
  simp only [writeCommit]
  rw [evicted_entries]

theorem ringRepr_init (c : Config) : RingRepr c [] initState := by
  refine ⟨by simp [initState], by simp [initState], by simp [initState],
    by simp, fun i hi => by simp [initState] at hi⟩

theorem ringRepr_step (c : Config) (ex : Nat) (hex : c.MAX_ENTRIES = 2 ^ ex)
    (hL : 0 < c.MSG_LEN) (msgs : List (List Nat)) (st : KlogState) (m : List Nat)
    (hm : m.length < c.MSG_LEN) (hz : ∀ b ∈ m, b ≠ 0) (hr : RingRepr c msgs st) :
    RingRepr c (msgs ++ [m]) (dev_write c st m 0 true).2 := by
  obtain ⟨hh, he, ht, hph, hslots⟩ := hr
  have hN : 0 < c.MAX_ENTRIES := by rw [hex]; positivity
  rw [dev_write_ok_eq c st m 0 hL]
  have hlen' : (msgs ++ [m]).length = msgs.length + 1 := by simp
  have hbuf : (writeCommit c st m).log_buffer =
      setByte (writeBytes st.log_buffer (st.head * c.MSG_LEN) m)
        (st.head * c.MSG_LEN + m.length) 0 := by
    rw [writeCommit_log_buffer, payload_small c m hm]
  have hstored : slotContent c (writeCommit c st m).log_buffer st.head = m := by
    rw [hbuf]
    exact slotContent_stored c st.log_buffer st.head m hm hz
  have huntouched : ∀ j, j ≠ st.head →
      slotContent c (writeCommit c st m).log_buffer j = slotContent c st.log_buffer j := by
    intro j hj
    rw [hbuf]
    exact slotContent_untouched c st.log_buffer st.head j m hm hj
  by_cases hge : c.MAX_ENTRIES ≤ msgs.length
  · have hmin : min msgs.length c.MAX_ENTRIES = c.MAX_ENTRIES := Nat.min_eq_right hge
    have hmin' : min (msgs.length + 1) c.MAX_ENTRIES = c.MAX_ENTRIES :=
      Nat.min_eq_right (by omega)
    have hcond : st.entries = c.MAX_ENTRIES ∧ st.head = st.tail := by
      refine ⟨by rw [he, hmin], ?_⟩
      rw [hh, ht, he, hmin]
      exact Nat.mod_eq_sub_mod hge
    have hev_tail : (evicted c st).tail = nextIdx c st.tail := by
      unfold evicted
      rw [if_pos hcond]
    have hent : (writeCommit c st m).entries = c.MAX_ENTRIES := by
      rw [writeCommit_entries, hcond.1]
      simp
    refine ⟨?_, ?_, ?_, ?_, ?_⟩
    · rw [writeCommit_head, hh, nextIdx_eq_mod c ex hex, Nat.mod_add_mod, hlen']
    · rw [hent, hlen', hmin']
    · rw [writeCommit_tail, hev_tail, ht, he, hmin, nextIdx_eq_mod c ex hex,
        Nat.mod_add_mod, hlen', hent]
      congr 1
      omega
    · intro _
      rw [writeCommit_prev_head, hh, hlen']
      have hs1 : msgs.length + 1 - 1 = msgs.length := by omega
      rw [hs1]
    · intro i hi
      rw [hent] at hi
      rw [hlen', hent]
      by_cases hlast : i = c.MAX_ENTRIES - 1
      · have hidx : msgs.length + 1 - c.MAX_ENTRIES + i = msgs.length := by omega
        rw [hidx, ← hh, hstored,
          List.getD_append_right msgs [m] [] msgs.length (Nat.le_refl _)]
        simp
      · have hne : (msgs.length + 1 - c.MAX_ENTRIES + i) % c.MAX_ENTRIES ≠ st.head := by
          have hmne := add_mod_ne (j := msgs.length + 1 - c.MAX_ENTRIES + i)
            (d := c.MAX_ENTRIES - 1 - i) (N := c.MAX_ENTRIES) (by omega) (by omega)
          have hjd : msgs.length + 1 - c.MAX_ENTRIES + i + (c.MAX_ENTRIES - 1 - i) =
              msgs.length := by omega
          rw [hjd] at hmne
          rw [hh]
          exact Ne.symm hmne
        rw [huntouched _ hne]
        have hold := hslots (i + 1) (by rw [he, hmin]; omega)
        rw [he, hmin] at hold
        have hidx : msgs.length + 1 - c.MAX_ENTRIES + i =
            msgs.length - c.MAX_ENTRIES + (i + 1) := by omega
        rw [hidx, hold]
        exact (List.getD_append msgs [m] [] _ (by omega)).symm
  · have hlt : msgs.length < c.MAX_ENTRIES := by omega
    have hmin : min msgs.length c.MAX_ENTRIES = msgs.length :=
      Nat.min_eq_left (le_of_lt hlt)
    have hmin' : min (msgs.length + 1) c.MAX_ENTRIES = msgs.length + 1 :=
      Nat.min_eq_left (by omega)
    have hcond : ¬(st.entries = c.MAX_ENTRIES ∧ st.head = st.tail) := by
      rintro ⟨h1, _⟩
      rw [he, hmin] at h1
      omega
    have hev_tail : (evicted c st).tail = st.tail := by
      unfold evicted
      rw [if_neg hcond]
    have hent : (writeCommit c st m).entries = msgs.length + 1 := by
      rw [writeCommit_entries, he, hmin, if_pos hlt]
    have hhead : st.head = msgs.length := by
      rw [hh]
      exact Nat.mod_eq_of_lt hlt
    refine ⟨?_, ?_, ?_, ?_, ?_⟩
    · rw [writeCommit_head, hh, nextIdx_eq_mod c ex hex, Nat.mod_add_mod, hlen']
    · rw [hent, hlen', hmin']
    · rw [writeCommit_tail, hev_tail, ht, he, hmin, hlen', hent]
      congr 1
      omega
    · intro _
      rw [writeCommit_prev_head, hh, hlen']
      have hs1 : msgs.length + 1 - 1 = msgs.length := by omega
      rw [hs1]
    · intro i hi
      rw [hent] at hi
      rw [hlen', hent]
      have hidx0 : msgs.length + 1 - (msgs.length + 1) + i = i := by omega
      rw [hidx0]
      have himod : i % c.MAX_ENTRIES = i := Nat.mod_eq_of_lt (by omega)
      rw [himod]
      by_cases hlast : i = msgs.length
      · have hst2 : slotContent c (writeCommit c st m).log_buffer msgs.length = m := by
          rw [← hhead]
          exact hstored
        rw [hlast, hst2, List.getD_append_right msgs [m] [] msgs.length (Nat.le_refl _)]
        simp
      · have hine : i ≠ st.head := by
          rw [hhead]
          exact hlast
        rw [huntouched _ hine]
        have hold := hslots i (by rw [he, hmin]; omega)
        rw [he, hmin] at hold
        have hidx1 : msgs.length - msgs.length + i = i := by omega
        rw [hidx1, himod] at hold
        rw [hold]
        exact (List.getD_append msgs [m] [] i (by omega)).symm

theorem ringRepr_writeSeq_aux (c : Config) (ex : Nat) (hex : c.MAX_ENTRIES = 2 ^ ex)
    (hL : 0 < c.MSG_LEN) :
    ∀ (ms done : List (List Nat)) (st : KlogState),
      RingRepr c done st → (∀ m ∈ ms, m.length < c.MSG_LEN ∧ ∀ b ∈ m, b ≠ 0) →
      RingRepr c (done ++ ms) (writeSeq c st ms) := by
  intro ms
  induction ms with
  | nil =>
    intro done st h _
    simpa [writeSeq] using h
  | cons m ms ih =>
    intro done st h hv
    have hm := hv m (List.mem_cons_self m ms)
    have hstep := ringRepr_step c ex hex hL done st m hm.1 hm.2 h
    have hrest := ih (done ++ [m]) _ hstep (fun x hx => hv x (List.mem_cons_of_mem m hx))
    simpa [writeSeq, List.append_assoc] using hrest

theorem ringRepr_writeSeq (c : Config) (ex : Nat) (hex : c.MAX_ENTRIES = 2 ^ ex)
    (hL : 0 < c.MSG_LEN) (msgs : List (List Nat))
    (hv : ∀ m ∈ msgs, m.length < c.MSG_LEN ∧ ∀ b ∈ m, b ≠ 0) :
    RingRepr c msgs (writeSeq c initState msgs) := by
  simpa using ringRepr_writeSeq_aux c ex hex hL msgs [] initState (ringRepr_init c) hv

theorem dev_write_entries_le (c : Config) (st : KlogState) (msg : List Nat) (fp : Nat)
    (cok : Bool) (h : st.entries ≤ c.MAX_ENTRIES) :
    (dev_write c st msg fp cok).2.entries ≤ c.MAX_ENTRIES := by
  unfold dev_write
  split
  · exact h
  · split
    · show (evicted c st).entries ≤ c.MAX_ENTRIES
      rw [evicted_entries]
      exact h
    · show (writeCommit c st msg).entries ≤ c.MAX_ENTRIES
      rw [writeCommit_entries]
      split <;> omega

theorem writeSeq_entries_le (c : Config) :
    ∀ (ms : List (List Nat)) (st : KlogState), st.entries ≤ c.MAX_ENTRIES →
      (writeSeq c st ms).entries ≤ c.MAX_ENTRIES := by
  intro ms
  induction ms with
  | nil => intro st h; exact h
  | cons m ms ih =>
    intro st h
    exact ih _ (dev_write_entries_le c st m 0 true h)

theorem range_map_getD_eq_drop (msgs : List (List Nat)) (s : Nat) (hs : s ≤ msgs.length) :
    (List.range (msgs.length - s)).map (fun i => msgs.getD (s + i) []) = msgs.drop s := by
  apply List.ext_getElem
  · simp
  · intro i h1 h2
    simp only [List.getElem_map, List.getElem_range]
    rw [List.getElem_drop msgs]
    have hi : s + i < msgs.length := by
      rw [List.length_drop] at h2
      omega
    rw [List.getD_eq_getElem msgs [] hi]

theorem entriesList_of_repr (c : Config) (ex : Nat) (hex : c.MAX_ENTRIES = 2 ^ ex)
    (msgs : List (List Nat)) (st : KlogState) (hr : RingRepr c msgs st) :
    entriesList c st = msgs.drop (msgs.length - st.entries) := by
  obtain ⟨hh, he, ht, hph, hslots⟩ := hr
  unfold entriesList validSlots
  rw [List.map_map]
  have hmap : ∀ i ∈ List.range st.entries,
      (slotContent c st.log_buffer ∘ fun i => (st.tail + i) &&& (c.MAX_ENTRIES - 1)) i =
        msgs.getD (msgs.length - st.entries + i) [] := by
    intro i hi
    rw [List.mem_range] at hi
    show slotContent c st.log_buffer ((st.tail + i) &&& (c.MAX_ENTRIES - 1)) = _
    rw [mask_eq_mod c ex hex, ht, Nat.mod_add_mod]
    exact hslots i hi
  rw [List.map_congr_left hmap]
  have hs : msgs.length - st.entries ≤ msgs.length := by omega
  have hdrop := range_map_getD_eq_drop msgs (msgs.length - st.entries) hs
  have hx : msgs.length - (msgs.length - st.entries) = st.entries := by
    rw [he]
    omega
  rw [hx] at hdrop
  exact hdrop

theorem flatten_map_range_succ (f : Nat → List Nat) (n : Nat) :
    ((List.range (n + 1)).map f).flatten =
      f 0 ++ ((List.range n).map (fun i => f (i + 1))).flatten := by
  rw [List.range_succ_eq_map]
  simp only [List.map_cons, List.map_map, List.flatten_cons]
  congr 1

theorem scanConcat_window (c : Config) (ex : Nat) (hex : c.MAX_ENTRIES = 2 ^ ex)
    (buf : Nat → Nat) (ph : Nat) :
    ∀ left pos, 0 < left → pos < c.MAX_ENTRIES →
      (pos + (left - 1)) % c.MAX_ENTRIES = ph →
      (∀ i, i < left - 1 → (pos + i) % c.MAX_ENTRIES ≠ ph) →
      scanConcat c buf ph pos left =
        ((List.range left).map
          (fun i => slotContent c buf ((pos + i) % c.MAX_ENTRIES))).flatten := by
  have hN : 0 < c.MAX_ENTRIES := by rw [hex]; positivity
  intro left
  induction left with
  | zero => omega
  | succ left ih =>
    intro pos hpos1 hpos hph hne
    cases left with
    | zero =>
      have hp : pos = ph := by
        simpa [Nat.mod_eq_of_lt hpos] using hph
      rw [scanConcat, if_pos hp]
      have hr1 : List.range 1 = [0] := by simp [List.range_succ]
      simp only [hr1, List.map_cons, List.map_nil, List.flatten_cons, List.flatten_nil,
        Nat.add_zero, Nat.mod_eq_of_lt hpos, List.append_nil, hp]
      rw [Nat.mod_eq_of_lt (hp ▸ hpos)]
    | succ left2 =>
      have hp : pos ≠ ph := by
        have := hne 0 (by omega)
        simpa [Nat.mod_eq_of_lt hpos] using this
      have hph2 : ((pos + 1) % c.MAX_ENTRIES + (left2 + 1 - 1)) % c.MAX_ENTRIES = ph := by
        rw [Nat.mod_add_mod]
        have harith : pos + 1 + (left2 + 1 - 1) = pos + (left2 + 1 + 1 - 1) := by omega
        rw [harith]
        exact hph
      have hne2 : ∀ i, i < left2 + 1 - 1 →
          ((pos + 1) % c.MAX_ENTRIES + i) % c.MAX_ENTRIES ≠ ph := by
        intro i hi
        rw [Nat.mod_add_mod]
        have harith : pos + 1 + i = pos + (i + 1) := by omega
        rw [harith]
        exact hne (i + 1) (by omega)
      rw [scanConcat, if_neg hp, nextIdx_eq_mod c ex hex, flatten_map_range_succ]
      rw [ih ((pos + 1) % c.MAX_ENTRIES) (by omega) (Nat.mod_lt _ hN) hph2 hne2]
      congr 1
      · rw [Nat.add_zero, Nat.mod_eq_of_lt hpos]
      · congr 1
        apply List.map_congr_left
        intro i _
        rw [Nat.mod_add_mod]
        have harith : pos + 1 + i = pos + (i + 1) := by omega
        rw [harith]

theorem scanConcat_eq_snapshot (c : Config) (ex : Nat) (hex : c.MAX_ENTRIES = 2 ^ ex)
    (st : KlogState) (hent : 0 < st.entries) (htl : st.tail < c.MAX_ENTRIES)
    (hph : (st.tail + (st.entries - 1)) % c.MAX_ENTRIES = st.prev_head)
    (hne : ∀ i, i < st.entries - 1 → (st.tail + i) % c.MAX_ENTRIES ≠ st.prev_head) :
    scanConcat c st.log_buffer st.prev_head st.tail st.entries = specSnapshot c st := by
  rw [scanConcat_window c ex hex st.log_buffer st.prev_head st.entries st.tail hent htl
    hph hne]
  unfold specSnapshot entriesList validSlots
  rw [List.map_map]
  congr 1
  apply List.map_congr_left
  intro i _
  show slotContent c st.log_buffer ((st.tail + i) % c.MAX_ENTRIES) =
    slotContent c st.log_buffer ((st.tail + i) &&& (c.MAX_ENTRIES - 1))
  rw [mask_eq_mod c ex hex]

theorem dev_read_all (c : Config) (ex : Nat) (hex : c.MAX_ENTRIES = 2 ^ ex)
    (hL : 0 < c.MSG_LEN) (st : KlogState)
    (hent : 0 < st.entries) (henN : st.entries ≤ c.MAX_ENTRIES)
    (htl : st.tail < c.MAX_ENTRIES)
    (hph : (st.tail + (st.entries - 1)) % c.MAX_ENTRIES = st.prev_head)
    (hne : ∀ i, i < st.entries - 1 → (st.tail + i) % c.MAX_ENTRIES ≠ st.prev_head)
    (hslots : ∀ p, p < c.MAX_ENTRIES → 0 < strnlen st.log_buffer (p * c.MSG_LEN) c.MSG_LEN) :
    dev_read c st true (LOG_BUF_LEN c) 0 true true =
      (ReadResult.ok (specSnapshot c st), (specSnapshot c st).length) := by
  have hN : 0 < c.MAX_ENTRIES := by rw [hex]; positivity
  have hcount : 0 < LOG_BUF_LEN c := Nat.mul_pos hN hL
  have hr1 : (readLoop c st.log_buffer st.prev_head (LOG_BUF_LEN c) st.tail st.entries
      [] 0).1 = specSnapshot c st := by
    rw [readLoop_eq_take c st.log_buffer st.prev_head (LOG_BUF_LEN c) st.entries st.tail
      [] 0 (by simp)]
    rw [← scanConcat_eq_snapshot c ex hex st hent htl hph hne]
    have h1 := scanConcat_length_le c st.log_buffer st.prev_head st.entries st.tail
    have h2 : st.entries * c.MSG_LEN ≤ c.MAX_ENTRIES * c.MSG_LEN :=
      Nat.mul_le_mul_right _ henN
    have hlen : (scanConcat c st.log_buffer st.prev_head st.tail st.entries).length ≤
        LOG_BUF_LEN c - ([] : List Nat).length := by
      simp only [List.length_nil, Nat.sub_zero]
      unfold LOG_BUF_LEN
      omega
    rw [List.take_of_length_le hlen]
    simp
  have hr2 : 0 < (readLoop c st.log_buffer st.prev_head (LOG_BUF_LEN c) st.tail st.entries
      [] 0).2 :=
    readLoop_btc_pos c st.log_buffer st.prev_head (LOG_BUF_LEN c) hN hslots st.entries
      st.tail [] 0 hent (by simpa using hcount) htl
  simp only [dev_read]
  rw [if_neg (by simp; omega), if_neg (by omega), if_neg (by simp),
    if_neg (by omega), if_neg (by simp), hr1]
  simp

/-! The claims. -/

/-- C1: the claim states that end-of-stream is determined relative to the
current logical snapshot: a read whose cursor is below the snapshot length
returns a non-zero number of bytes, and a polling caller consumes exactly
the buffered bytes.  The code instead compares the file position against
LOG_BUF_LEN (line 137) and against the length of the last scanned message
(line 178).  Concretely: with entries 97 98 99 and 120 buffered (snapshot
length 4), a read at cursor 2 returns zero bytes, and a poller with
max_len 2 starting at cursor 0 receives 2 bytes and then end-of-stream,
never seeing the remaining 2 bytes.  The spec (section 9) identifies the
snapshot-relative semantics as the intent and the source comparison as the
inconsistency, so this is a code bug, witnessed here by evaluating the
embedded code at the failing input. -/
theorem C1_eos_code_bug :
    (specSnapshot smallConfig stC1).length = 4 ∧
    dev_read smallConfig stC1 true 32 2 true true = (ReadResult.ok [], 2) ∧
    dev_read smallConfig stC1 true 2 0 true true = (ReadResult.ok [97, 98], 2) ∧
    dev_read smallConfig stC1 true 2 2 true true = (ReadResult.ok [], 2) := by
  decide

/-- C2 counterexample: the claim states a read never returns bytes ending
in the middle of a message.  With the single entry 97 98 99 buffered and
max_len 2, the code returns 97 98: two bytes that are neither at a message
end nor at end-of-stream (the snapshot has 3 bytes). -/
theorem C2_counterexample :
    (dev_read smallConfig stC2 true 2 0 true true).1 = ReadResult.ok [97, 98] ∧
    2 < (specSnapshot smallConfig stC2).length ∧
    ([97, 98] : List Nat).length ∉ msgEnds smallConfig stC2 := by
  decide

/-- C2 (amended): the scan does not stop before a message that would
exceed max_len; it clips that message (src/klogger.c lines 155-157), so
the bytes staged by the loop are exactly the scanned concatenation of
slot contents truncated to max_len bytes, possibly ending mid-message. -/
theorem C2_clip (c : Config) (buf : Nat → Nat) (ph count left pos : Nat) :
    (readLoop c buf ph count pos left [] 0).1 =
      (scanConcat c buf ph pos left).take count := by
  rw [readLoop_eq_take c buf ph count left pos [] 0 (by simp)]
  simp

/-- C3 counterexample: the claim states a failed copy leaves the entire
ring state unchanged.  On a full ring with head = tail (four entries in
the small configuration), a write whose copy faults still advances tail
from 0 to 1, because eviction precedes the copy. -/
theorem C3_counterexample :
    (dev_write smallConfig stC3 [9] 0 false).1 = WriteResult.efault ∧
    stC3.tail = 0 ∧ (dev_write smallConfig stC3 [9] 0 false).2.tail = 1 := by
  decide

/-- C3 (amended): if copying from the caller's buffer fails, dev_write
returns an I/O fault and leaves the slot storage, head, last_written and
entries unchanged; tail is also unchanged unless the ring was full with
head = tail, in which case tail has already been advanced by one (the
oldest entry was evicted before the failed copy). -/
theorem C3_efault_frame (c : Config) (st : KlogState) (msg : List Nat) (fp : Nat)
    (hfp : fp < c.MSG_LEN) :
    (dev_write c st msg fp false).1 = WriteResult.efault ∧
    (dev_write c st msg fp false).2.log_buffer = st.log_buffer ∧
    (dev_write c st msg fp false).2.head = st.head ∧
    (dev_write c st msg fp false).2.prev_head = st.prev_head ∧
    (dev_write c st msg fp false).2.entries = st.entries ∧
    (¬(st.entries = c.MAX_ENTRIES ∧ st.head = st.tail) →
      (dev_write c st msg fp false).2.tail = st.tail) ∧
    (st.entries = c.MAX_ENTRIES ∧ st.head = st.tail →
      (dev_write c st msg fp false).2.tail = nextIdx c st.tail) := by
  rw [dev_write_efault_eq c st msg fp hfp]
  refine ⟨rfl, evicted_log_buffer c st, evicted_head c st, evicted_prev_head c st,
    evicted_entries c st, ?_, ?_⟩
  · intro h
    unfold evicted
    rw [if_neg h]
  · intro h
    unfold evicted
    rw [if_pos h]

theorem C3_efault_frame_witness :
    (dev_write smallConfig stC2 [5] 0 false).1 = WriteResult.efault ∧
    (dev_write smallConfig stC2 [5] 0 false).2.tail = stC2.tail := by
  have h := C3_efault_frame smallConfig stC2 [5] 0 (by decide)
  exact ⟨h.1, h.2.2.2.2.2.1 (by decide)⟩

/-- C4: a write of length L at or past MSG_LEN stores exactly the
trailing MSG_LEN - 1 bytes of the message into the destination slot and
returns the original count L; a shorter message is stored in full and its
length returned (src/klogger.c lines 211-218, 230, 246). -/
theorem C4_truncation (c : Config) (st : KlogState) (msg : List Nat) (fp : Nat)
    (hfp : fp < c.MSG_LEN) :
    (dev_write c st msg fp true).1 = WriteResult.ok msg.length ∧
    (c.MSG_LEN ≤ msg.length →
      slice (dev_write c st msg fp true).2.log_buffer (st.head * c.MSG_LEN)
        (c.MSG_LEN - 1) = msg.drop (msg.length - (c.MSG_LEN - 1))) ∧
    (msg.length < c.MSG_LEN →
      slice (dev_write c st msg fp true).2.log_buffer (st.head * c.MSG_LEN)
        msg.length = msg) := by
  rw [dev_write_ok_eq c st msg fp hfp]
  refine ⟨rfl, ?_, ?_⟩
  · intro h
    show slice (writeCommit c st msg).log_buffer (st.head * c.MSG_LEN) (c.MSG_LEN - 1) =
      msg.drop (msg.length - (c.MSG_LEN - 1))
    rw [writeCommit_log_buffer]
    have hp : payload c msg = msg.drop (msg.length - (c.MSG_LEN - 1)) := payload_large c msg h
    have hplen : (payload c msg).length = c.MSG_LEN - 1 := by
      rw [payload_length]
      unfold bytesToCopy
      rw [if_pos h]
    rw [← hp, ← hplen]
    exact slice_stored (payload c msg) st.log_buffer (st.head * c.MSG_LEN)
  · intro h
    show slice (writeCommit c st msg).log_buffer (st.head * c.MSG_LEN) msg.length = msg
    rw [writeCommit_log_buffer, payload_small c msg h]
    exact slice_stored msg st.log_buffer (st.head * c.MSG_LEN)

theorem C4_truncation_witness :
    (dev_write smallConfig initState [1, 2, 3, 4, 5, 6, 7, 8, 9, 10] 0 true).1 =
      WriteResult.ok 10 ∧
    slice (dev_write smallConfig initState [1, 2, 3, 4, 5, 6, 7, 8, 9, 10] 0 true).2.log_buffer
      0 7 = [4, 5, 6, 7, 8, 9, 10] := by
  have h := C4_truncation smallConfig initState [1, 2, 3, 4, 5, 6, 7, 8, 9, 10] 0 (by decide)
  refine ⟨h.1, ?_⟩
  have h2 := h.2.1 (by decide)
  exact (by decide : slice (dev_write smallConfig initState
    [1, 2, 3, 4, 5, 6, 7, 8, 9, 10] 0 true).2.log_buffer 0 7 =
    slice (dev_write smallConfig initState [1, 2, 3, 4, 5, 6, 7, 8, 9, 10] 0
      true).2.log_buffer (initState.head * smallConfig.MSG_LEN) (smallConfig.MSG_LEN - 1)).trans
    (h2.trans (by decide))

/-- C5: capacity is never exceeded; a write on a full ring with
head = tail first advances tail (eviction); and after at least
MAX_ENTRIES successful writes from the empty ring the valid entries are
exactly the last MAX_ENTRIES messages in submission order, and a read of
the whole buffer returns their concatenation. -/
theorem C5_capacity_eviction_lastN (c : Config) (ex : Nat)
    (hex : c.MAX_ENTRIES = 2 ^ ex) (hL : 0 < c.MSG_LEN) :
    (∀ msgs : List (List Nat), (writeSeq c initState msgs).entries ≤ c.MAX_ENTRIES) ∧
    (∀ (st : KlogState) (msg : List Nat), st.entries = c.MAX_ENTRIES → st.head = st.tail →
      (dev_write c st msg 0 true).2.tail = nextIdx c st.tail) ∧
    (∀ msgs : List (List Nat),
      (∀ m ∈ msgs, m.length < c.MSG_LEN ∧ ∀ b ∈ m, b ≠ 0) →
      c.MAX_ENTRIES ≤ msgs.length →
      entriesList c (writeSeq c initState msgs) =
        msgs.drop (msgs.length - c.MAX_ENTRIES)) ∧
    (∀ msgs : List (List Nat),
      (∀ m ∈ msgs, m.length < c.MSG_LEN ∧ m ≠ [] ∧ ∀ b ∈ m, b ≠ 0) →
      c.MAX_ENTRIES ≤ msgs.length →
      dev_read c (writeSeq c initState msgs) true (LOG_BUF_LEN c) 0 true true =
        (ReadResult.ok (msgs.drop (msgs.length - c.MAX_ENTRIES)).flatten,
          (msgs.drop (msgs.length - c.MAX_ENTRIES)).flatten.length)) := by
  have hN : 0 < c.MAX_ENTRIES := by rw [hex]; positivity
  refine ⟨?_, ?_, ?_, ?_⟩
  · intro msgs
    exact writeSeq_entries_le c msgs initState (by simp [initState])
  · intro st msg h1 h2
    rw [dev_write_ok_eq c st msg 0 hL, writeCommit_tail]
    unfold evicted
    rw [if_pos ⟨h1, h2⟩]
  · intro msgs hv hge
    have hr := ringRepr_writeSeq c ex hex hL msgs hv
    have hent : (writeSeq c initState msgs).entries = c.MAX_ENTRIES := by
      rw [hr.2.1, Nat.min_eq_right hge]
    rw [entriesList_of_repr c ex hex msgs _ hr, hent]
  · intro msgs hv hge
    have hv2 : ∀ m ∈ msgs, m.length < c.MSG_LEN ∧ ∀ b ∈ m, b ≠ 0 :=
      fun m hm => ⟨(hv m hm).1, (hv m hm).2.2⟩
    have hr := ringRepr_writeSeq c ex hex hL msgs hv2
    obtain ⟨hh, he, ht, hph, hslots⟩ := hr
    have hentN : (writeSeq c initState msgs).entries = c.MAX_ENTRIES := by
      rw [he, Nat.min_eq_right hge]
    have hk1 : 0 < msgs.length := by omega
    have hphv := hph hk1
    have htl : (writeSeq c initState msgs).tail < c.MAX_ENTRIES := by
      rw [ht]
      exact Nat.mod_lt _ hN
    have hphc : ((writeSeq c initState msgs).tail + ((writeSeq c initState msgs).entries - 1))
        % c.MAX_ENTRIES = (writeSeq c initState msgs).prev_head := by
      rw [ht, hentN, hphv, Nat.mod_add_mod]
      congr 1
      omega
    have hnec : ∀ i, i < (writeSeq c initState msgs).entries - 1 →
        ((writeSeq c initState msgs).tail + i) % c.MAX_ENTRIES ≠
          (writeSeq c initState msgs).prev_head := by
      intro i hi
      rw [hentN] at hi
      rw [ht, hentN, hphv, Nat.mod_add_mod]
      have hmne := add_mod_ne (j := msgs.length - c.MAX_ENTRIES + i)
        (d := c.MAX_ENTRIES - 1 - i) (N := c.MAX_ENTRIES) (by omega) (by omega)
      have harith : msgs.length - c.MAX_ENTRIES + i + (c.MAX_ENTRIES - 1 - i) =
          msgs.length - 1 := by omega
      rw [harith] at hmne
      exact Ne.symm hmne
    have hslotlen : ∀ p, p < c.MAX_ENTRIES →
        0 < strnlen (writeSeq c initState msgs).log_buffer (p * c.MSG_LEN) c.MSG_LEN := by
      intro p hp
      obtain ⟨i, hiN, hip⟩ :=
        exists_window_index hN (msgs.length - (writeSeq c initState msgs).entries) p hp
      have hsl := hslots i (by rw [hentN]; exact hiN)
      rw [hip] at hsl
      have hlt : msgs.length - (writeSeq c initState msgs).entries + i < msgs.length := by
        rw [hentN]
        omega
      have hmem : msgs.getD (msgs.length - (writeSeq c initState msgs).entries + i) []
          ∈ msgs := by
        rw [List.getD_eq_getElem msgs [] hlt]
        exact List.getElem_mem hlt
      have hne0 : msgs.getD (msgs.length - (writeSeq c initState msgs).entries + i) [] ≠ [] :=
        (hv _ hmem).2.1
      have hlenpos : 0 < (slotContent c (writeSeq c initState msgs).log_buffer p).length := by
        rw [hsl]
        exact List.length_pos.mpr hne0
      rw [slotContent_length] at hlenpos
      exact hlenpos
    have hall := dev_read_all c ex hex hL (writeSeq c initState msgs) (by omega) (by omega)
      htl hphc hnec hslotlen
    rw [hall]
    have hsnap : specSnapshot c (writeSeq c initState msgs) =
        (msgs.drop (msgs.length - c.MAX_ENTRIES)).flatten := by
      unfold specSnapshot
      rw [entriesList_of_repr c ex hex msgs _ ⟨hh, he, ht, hph, hslots⟩, hentN]
    rw [hsnap]

theorem C5_capacity_eviction_lastN_witness :
    entriesList smallConfig (writeSeq smallConfig initState [[1], [2], [3], [4], [5]]) =
      [[2], [3], [4], [5]] ∧
    dev_read smallConfig (writeSeq smallConfig initState [[1], [2], [3], [4], [5]]) true
      (LOG_BUF_LEN smallConfig) 0 true true = (ReadResult.ok [2, 3, 4, 5], 4) := by
  have h := C5_capacity_eviction_lastN smallConfig 2 (by decide) (by decide)
  constructor
  · exact (h.2.2.1 [[1], [2], [3], [4], [5]] (by decide) (by decide)).trans (by decide)
  · exact (h.2.2.2 [[1], [2], [3], [4], [5]] (by decide) (by decide)).trans (by decide)

/-- C6: every failing read (invalid destination or zero max_len giving
-EINVAL, failed allocation giving -ENOMEM, failed copy-out giving
-EFAULT) leaves the session cursor unchanged, and a read never mutates
the ring state, so retrying with the same cursor is safe. -/
theorem C6_failed_read (c : Config) (st : KlogState) (uv : Bool) (count fp : Nat)
    (aok cok : Bool) :
    ((uv = false ∨ count = 0) →
      dev_read c st uv count fp aok cok = (ReadResult.einval, fp)) ∧
    ((dev_read c st uv count fp aok cok).1 = ReadResult.einval ∨
     (dev_read c st uv count fp aok cok).1 = ReadResult.enomem ∨
     (dev_read c st uv count fp aok cok).1 = ReadResult.efault →
      (dev_read c st uv count fp aok cok).2 = fp) ∧
    applyOp c st (Op.read uv count fp aok cok) = st := by
  refine ⟨?_, ?_, rfl⟩
  · intro h
    unfold dev_read
    rw [if_pos h]
  · intro h
    rcases h with h | h | h <;>
      (simp only [dev_read] at h ⊢; split_ifs at h ⊢ <;> simp_all)

theorem C6_failed_read_witness :
    dev_read smallConfig stC2 false 5 3 true true = (ReadResult.einval, 3) :=
  (C6_failed_read smallConfig stC2 false 5 3 true true).1 (Or.inl rfl)

/-- C7: starting from the zeroed initial state, every sequence of reads
and writes keeps head and tail below MAX_ENTRIES, entries at most
MAX_ENTRIES, and head equal to next(prev_head) whenever an entry exists;
moreover no operation ever decreases entries. -/
theorem C7_tracker_invariants (c : Config) (hN : 0 < c.MAX_ENTRIES) :
    (∀ ops : List Op, Inv c (runOps c initState ops)) ∧
    (∀ (st : KlogState) (op : Op), st.entries ≤ (applyOp c st op).entries) := by
  constructor
  · intro ops
    exact Inv_runOps c hN ops initState (Inv_init c hN)
  · intro st op
    exact applyOp_entries_mono c st op

theorem C7_tracker_invariants_witness :
    Inv smallConfig (runOps smallConfig initState
      [Op.write [7] 0 true, Op.read true 8 0 true true, Op.write [1, 2] 0 false]) :=
  (C7_tracker_invariants smallConfig (by decide)).1
    [Op.write [7] 0 true, Op.read true 8 0 true true, Op.write [1, 2] 0 false]

/-- C8: a successful read returns at most the requested number of bytes,
and the bytes staged by the loop never exceed min(count, LOG_BUF_LEN),
the size kmalloc allocates at line 142, so the temporary buffer is never
overrun (given the reachable-state fact entries ≤ MAX_ENTRIES). -/
theorem C8_read_bounded (c : Config) (st : KlogState) (uv : Bool) (count fp : Nat)
    (aok cok : Bool) (hent : st.entries ≤ c.MAX_ENTRIES) :
    (∀ bs : List Nat, (dev_read c st uv count fp aok cok).1 = ReadResult.ok bs →
      bs.length ≤ count) ∧
    (readLoop c st.log_buffer st.prev_head count st.tail st.entries [] 0).1.length ≤
      min count (LOG_BUF_LEN c) := by
  have hstaged : (readLoop c st.log_buffer st.prev_head count st.tail st.entries [] 0).1 =
      (scanConcat c st.log_buffer st.prev_head st.tail st.entries).take count := by
    rw [readLoop_eq_take c st.log_buffer st.prev_head count st.entries st.tail [] 0
      (by simp)]
    simp
  have hscan := scanConcat_length_le c st.log_buffer st.prev_head st.entries st.tail
  have hNL : st.entries * c.MSG_LEN ≤ LOG_BUF_LEN c := by
    unfold LOG_BUF_LEN
    exact Nat.mul_le_mul_right _ hent
  have hlen2 : (readLoop c st.log_buffer st.prev_head count st.tail st.entries [] 0).1.length
      ≤ min count (LOG_BUF_LEN c) := by
    rw [hstaged, List.length_take]
    omega
  refine ⟨?_, hlen2⟩
  intro bs hbs
  simp only [dev_read] at hbs
  split_ifs at hbs <;> simp at hbs <;> subst hbs <;>
    first
      | exact Nat.zero_le count
      | exact le_trans hlen2 (Nat.min_le_left _ _)

theorem C8_read_bounded_witness :
    (readLoop smallConfig stC2.log_buffer stC2.prev_head 2 stC2.tail stC2.entries
      [] 0).1.length ≤ min 2 (LOG_BUF_LEN smallConfig) :=
  (C8_read_bounded smallConfig stC2 true 2 0 true true (by decide)).2

/-- C9: every successful write stores a NUL terminator at offset
bytes_to_copy ≤ MSG_LEN - 1 within the destination slot (src/klogger.c
line 235), and every state reachable from the zeroed initial state has
all slots terminated, so each stored entry's content length is at most
MSG_LEN - 1. -/
theorem C9_terminated (c : Config) (hL : 0 < c.MSG_LEN) :
    (∀ (st : KlogState) (msg : List Nat) (fp : Nat), fp < c.MSG_LEN →
      bytesToCopy c msg.length ≤ c.MSG_LEN - 1 ∧
      (dev_write c st msg fp true).2.log_buffer
        (st.head * c.MSG_LEN + bytesToCopy c msg.length) = 0) ∧
    (∀ ops : List Op, Terminated c (runOps c initState ops)) := by
  constructor
  · intro st msg fp hfp
    constructor
    · have := bytesToCopy_lt c hL msg.length
      omega
    · rw [dev_write_ok_eq c st msg fp hfp]
      show (writeCommit c st msg).log_buffer
        (st.head * c.MSG_LEN + bytesToCopy c msg.length) = 0
      rw [writeCommit_log_buffer, ← payload_length c msg]
      exact stored_nul (payload c msg) st.log_buffer (st.head * c.MSG_LEN)
  · intro ops
    exact Terminated_runOps c hL ops initState (Terminated_init c hL)

theorem C9_terminated_witness :
    Terminated smallConfig (runOps smallConfig initState [Op.write [3, 4] 0 true]) :=
  (C9_terminated smallConfig (by decide)).2 [Op.write [3, 4] 0 true]

/-- C10: a write whose file position is at or past MSG_LEN returns 0 and
changes nothing: src/klogger.c lines 220-222 return before the lock is
taken, before eviction and before any store, and dev_write never assigns
*file_pos at all, so the file position is unchanged as well. -/
theorem C10_write_past_msg_len (c : Config) (st : KlogState) (msg : List Nat) (fp : Nat)
    (cok : Bool) (h : c.MSG_LEN ≤ fp) :
    dev_write c st msg fp cok = (WriteResult.ok 0, st) :=
  dev_write_fp_ge c st msg fp cok h

theorem C10_write_past_msg_len_witness :
    dev_write smallConfig stC2 [1, 2, 3] 9 true = (WriteResult.ok 0, stC2) :=
  C10_write_past_msg_len smallConfig stC2 [1, 2, 3] 9 true (by decide)

end Klogger
